import Mathlib

/-!
Shallow embedding of the `simple-state-machine` Go library
(`state_machine.go`, `state_config.go`) and proofs about its engine.

Modelling conventions:

* Go heap pointers to `StateConfig` become indices ("addresses") into an
  arena `configs : List StateConfig` held by the machine; `parent` and
  `current` are addresses, and the registry `stateToConfig` maps a `State`
  to an address.  Go maps become association lists with first-match lookup
  and replace-or-append insertion (only lookup and keyed assignment are used
  by the source, so iteration order never matters).
* Caller-supplied closures (hooks and guard predicates) are abstracted by
  `Nat` labels.  Invoking a hook emits an `Event` recording which hook slot
  fired (exit / enter / enter-from) together with its label; invoking a
  guard predicate consults an `oracle : Nat → Bool` (the predicate's value
  at the moment of the call) and records `(label, value)` in an evaluation
  log.  This makes invocation order and short-circuiting observable, which
  is exactly what the library's tests observe.
* The Go `for current != nil` loops over `parent` pointers can diverge when
  the caller builds a cyclic parent chain, so the loop bodies are written
  with an explicit fuel argument and return `none` when the fuel runs out
  (or when an address dangles, which models a Go nil dereference panic);
  `some` results are exactly the terminating runs of the Go loops.
* `Fire` mutates the machine, so it returns the machine it leaves behind;
  the read-only methods additionally get state-threaded variants
  (`CanFireSt`, `IsInStateSt`, `StateSt`) whose machine component is the
  receiver exactly as the Go method body leaves it (the bodies contain no
  assignment to any machine or config field).
-/

namespace SSM

/-- `State` from `state_machine.go`: a named state. -/
structure State where
  name : String
deriving DecidableEq, Repr

/-- `Trigger` from `state_machine.go`: a trigger with a unique key. -/
structure Trigger where
  key : String
deriving DecidableEq, Repr

/-- `edge` from `state_config.go`: trigger, target state and guard
predicates (predicates are abstracted by `Nat` labels). -/
structure Edge where
  trigger : Trigger
  state : State
  preds : List Nat
deriving DecidableEq, Repr

/-- `StateConfig` from `state_config.go`.  The Go `owner` back-pointer is
dropped: the owning machine is threaded explicitly through every operation.
Hooks are `Nat` labels (`none` = Go nil); `parent` is an address into the
owning machine's `configs` arena. -/
structure StateConfig where
  onEnter : Option Nat
  onEnterFrom : List (Trigger × Nat)
  onExit : Option Nat
  state : State
  parent : Option Nat
  permitted : List (String × Edge)
deriving DecidableEq, Repr

/-- `StateMachine` from `state_machine.go`, plus the arena `configs` that
stands for the Go heap: `current` and every registry entry are indices into
`configs`. -/
structure StateMachine where
  current : Nat
  stateToConfig : List (State × Nat)
  configs : List StateConfig
deriving DecidableEq, Repr

/-- First-match lookup in an association list (a Go map read `m[k]`). -/
def lookupA {α β : Type} [DecidableEq α] : List (α × β) → α → Option β
  | [], _ => none
  | (k, v) :: rest, k' => if k' = k then some v else lookupA rest k'

/-- Replace-or-append insertion in an association list (a Go map write
`m[k] = v`). -/
def insertA {α β : Type} [DecidableEq α] : List (α × β) → α → β → List (α × β)
  | [], k, v => [(k, v)]
  | (k0, v0) :: rest, k, v =>
    if k = k0 then (k, v) :: rest else (k0, v0) :: insertA rest k v

/-- `NewStateConfig` from `state_config.go`: a blank configuration for `s`. -/
def NewStateConfig (s : State) : StateConfig :=
  { onEnter := none
    onEnterFrom := []
    onExit := none
    state := s
    parent := none
    permitted := [] }

/-- `registerStateConfig` from `state_machine.go`: get-or-create the config
for `s`; returns the updated machine and the config's address. -/
def registerStateConfig (m : StateMachine) (s : State) : StateMachine × Nat :=
  match lookupA m.stateToConfig s with
  | some a => (m, a)
  | none =>
    let a := m.configs.length
    ({ m with
        configs := m.configs ++ [NewStateConfig s]
        stateToConfig := insertA m.stateToConfig s a }, a)

/-- `NewStateMachine` from `state_machine.go`: registers the initial state
and makes it current. -/
def NewStateMachine (s : State) : StateMachine :=
  let p := registerStateConfig { current := 0, stateToConfig := [], configs := [] } s
  { p.1 with current := p.2 }

/-- `Configure` from `state_machine.go`: get-or-create the config for `s`;
the returned address is the caller's handle to the config. -/
def Configure (m : StateMachine) (s : State) : StateMachine × Nat :=
  registerStateConfig m s

/-- Apply `f` to the config stored at address `a` (a Go field write through
a `*StateConfig` handle). -/
def updateConfig (m : StateMachine) (a : Nat) (f : StateConfig → StateConfig) :
    StateMachine :=
  match m.configs[a]? with
  | none => m
  | some cfg => { m with configs := m.configs.set a (f cfg) }

/-- `StateConfig.Permit` from `state_config.go`, acting on the config at
address `a`: register the target state and overwrite the edge for the
trigger's key with a guard-free edge to `s`. -/
def Permit (m : StateMachine) (a : Nat) (t : Trigger) (s : State) : StateMachine :=
  let m1 := (registerStateConfig m s).1
  updateConfig m1 a fun c =>
    { c with permitted := insertA c.permitted t.key { trigger := t, state := s, preds := [] } }

/-- `StateConfig.PermitIf` from `state_config.go`, acting on the config at
address `a`: register the target state; if an edge for the trigger's key
already exists append the predicate label `p` to its guard list (keeping its
original target), otherwise create a new edge to `s` with guard list `[p]`. -/
def PermitIf (m : StateMachine) (a : Nat) (t : Trigger) (s : State) (p : Nat) :
    StateMachine :=
  let m1 := (registerStateConfig m s).1
  updateConfig m1 a fun c =>
    match lookupA c.permitted t.key with
    | none =>
      { c with permitted := insertA c.permitted t.key { trigger := t, state := s, preds := [p] } }
    | some e =>
      { c with permitted := insertA c.permitted t.key { e with preds := e.preds ++ [p] } }

/-- `StateConfig.OnEnter` from `state_config.go`: set the enter hook of the
config at address `a` to the closure labelled `l`. -/
def OnEnter (m : StateMachine) (a : Nat) (l : Nat) : StateMachine :=
  updateConfig m a fun c => { c with onEnter := some l }

/-- `StateConfig.OnExit` from `state_config.go`: set the exit hook of the
config at address `a` to the closure labelled `l`. -/
def OnExit (m : StateMachine) (a : Nat) (l : Nat) : StateMachine :=
  updateConfig m a fun c => { c with onExit := some l }

/-- `StateConfig.OnEnterFrom` from `state_config.go`: set the enter-from
hook of the config at address `a` for trigger `t` to the closure labelled
`l`. -/
def OnEnterFrom (m : StateMachine) (a : Nat) (t : Trigger) (l : Nat) : StateMachine :=
  updateConfig m a fun c => { c with onEnterFrom := insertA c.onEnterFrom t l }

/-- `StateConfig.SubstateOf` from `state_config.go`: register the parent
state and point the config at address `a` at its config.  No cycle check is
performed, exactly as in the source. -/
def SubstateOf (m : StateMachine) (a : Nat) (s : State) : StateMachine :=
  let p := registerStateConfig m s
  updateConfig p.1 a fun c => { c with parent := some p.2 }

/-- The guard-evaluation loop inside `CanFire`: evaluate the predicates in
order, stopping at the first `true`; returns the final value of Go's
`found` variable together with the log of `(label, value)` evaluations. -/
def evalPreds (oracle : Nat → Bool) : List Nat → Bool × List (Nat × Bool)
  | [] => (false, [])
  | p :: ps =>
    if oracle p then (true, [(p, true)])
    else
      let r := evalPreds oracle ps
      (r.1, (p, false) :: r.2)

/-- `StateMachine.CanFire` from `state_machine.go`, instrumented with the
guard-evaluation log (second component); the Boolean first component is the
Go return value. -/
def CanFireEval (m : StateMachine) (oracle : Nat → Bool) (triggerKey : String) :
    Bool × List (Nat × Bool) :=
  match m.configs[m.current]? with
  | none => (false, [])
  | some cur =>
    match lookupA cur.permitted triggerKey with
    | none => (false, [])
    | some next =>
      if next.preds.length > 0 then evalPreds oracle next.preds
      else (true, [])

/-- `StateMachine.CanFire` from `state_machine.go` (the Go return value). -/
def CanFire (m : StateMachine) (oracle : Nat → Bool) (triggerKey : String) : Bool :=
  (CanFireEval m oracle triggerKey).1

/-- An observable hook invocation made during `Fire`: which hook slot fired
and the label of the closure stored there; `enterFrom` also records the
context value the closure received. -/
inductive Event (C : Type) where
  | exit (label : Nat) : Event C
  | enter (label : Nat) : Event C
  | enterFrom (label : Nat) (ctx : C) : Event C
deriving DecidableEq, Repr

/-- The `for current != nil` exit-hook loop inside `Fire`, started at
address `oa`: collects the `onExit` labels along the parent chain in
child-to-ancestor order.  `none` means the loop has not finished within
`fuel` iterations (or dereferenced a dangling address). -/
def exitWalk (m : StateMachine) : Nat → Option Nat → Option (List Nat)
  | _, none => some []
  | 0, some _ => none
  | fuel + 1, some a =>
    match m.configs[a]? with
    | none => none
    | some cfg =>
      match exitWalk m fuel cfg.parent with
      | none => none
      | some rest =>
        match cfg.onExit with
        | some l => some (l :: rest)
        | none => some rest

/-- The addresses visited by a `for current != nil` walk up the parent
chain from `oa`, in visit order; `none` when the walk does not finish
within `fuel` steps. -/
def parentChain (m : StateMachine) : Nat → Option Nat → Option (List Nat)
  | _, none => some []
  | 0, some _ => none
  | fuel + 1, some a =>
    match m.configs[a]? with
    | none => none
    | some cfg => (parentChain m fuel cfg.parent).map (a :: ·)

/-- The `onExit` labels of the configs at the given addresses, kept in
order and skipping configs without an exit hook. -/
def chainExitLabels (m : StateMachine) (chain : List Nat) : List Nat :=
  chain.filterMap fun a => (m.configs[a]?).bind (·.onExit)

/-- The states of the configs at the given addresses, in order. -/
def chainStates (m : StateMachine) (chain : List Nat) : List State :=
  chain.filterMap fun a => (m.configs[a]?).map (·.state)

/-- The exit-walk guard plus walk inside `Fire`: Go runs the walk when the
target's parent is nil or the parent's state differs from the current
config's state, and skips it (producing no exit events) otherwise. -/
def fireExits (m : StateMachine) (cur tcfg : StateConfig) (fuel : Nat) :
    Option (List Nat) :=
  match tcfg.parent with
  | none => exitWalk m fuel (some m.current)
  | some pa =>
    match m.configs[pa]? with
    | none => none
    | some pcfg =>
      if pcfg.state = cur.state then some []
      else exitWalk m fuel (some m.current)

/-- The entry steps at the end of `Fire`: the target's enter-from hook for
the fired trigger (if any) invoked with the context, then the target's
enter hook (if any). -/
def entrySteps {C : Type} (tcfg : StateConfig) (t : Trigger) (ctx : C) :
    List (Event C) :=
  (match lookupA tcfg.onEnterFrom t with
   | some l => [Event.enterFrom l ctx]
   | none => []) ++
  (match tcfg.onEnter with
   | some l => [Event.enter l]
   | none => [])

/-- Outcome of `StateMachine.Fire`: the Go error return ("unsupported
trigger") or success; both carry the machine `Fire` leaves behind and the
hook invocations it made, in order. -/
inductive FireResult (C : Type) where
  | error (m : StateMachine) (trace : List (Event C)) : FireResult C
  | ok (m : StateMachine) (trace : List (Event C)) : FireResult C
deriving DecidableEq, Repr

/-- `StateMachine.Fire` from `state_machine.go`.  `none` models a run that
does not finish: either the exit walk exceeds `fuel` iterations (a cyclic
parent chain) or a nil `*StateConfig` is dereferenced (the target state
missing from the registry, impossible for machines built through the API). -/
def Fire {C : Type} (m : StateMachine) (oracle : Nat → Bool) (triggerKey : String)
    (ctx : C) (fuel : Nat) : Option (FireResult C) :=
  if CanFire m oracle triggerKey then
    match m.configs[m.current]? with
    | none => none
    | some cur =>
      match lookupA cur.permitted triggerKey with
      | none => none
      | some edge =>
        match lookupA m.stateToConfig edge.state with
        | none => none
        | some ta =>
          match m.configs[ta]? with
          | none => none
          | some tcfg =>
            match fireExits m cur tcfg fuel with
            | none => none
            | some exits =>
              some (FireResult.ok { m with current := ta }
                (exits.map Event.exit ++ entrySteps tcfg edge.trigger ctx))
  else some (FireResult.error m [])

/-- The `for current != nil` loop of `StateMachine.IsInState`, started at
address `oa`; `none` when the loop does not finish within `fuel` steps. -/
def isInStateLoop (m : StateMachine) (s : State) : Nat → Option Nat → Option Bool
  | _, none => some false
  | 0, some _ => none
  | fuel + 1, some a =>
    match m.configs[a]? with
    | none => none
    | some cfg =>
      if cfg.state = s then some true
      else isInStateLoop m s fuel cfg.parent

/-- `StateMachine.IsInState` from `state_machine.go`, with fuel for the
parent-chain loop. -/
def IsInState (m : StateMachine) (s : State) (fuel : Nat) : Option Bool :=
  isInStateLoop m s fuel (some m.current)

/-- `StateMachine.State` from `state_machine.go`: the state of the current
config (`none` models a dangling current pointer, impossible for machines
built through the API). -/
def StateMachine.State (m : StateMachine) : Option State :=
  (m.configs[m.current]?).map (·.state)

/-- State-threaded form of `CanFire`: the Go method body reads machine and
config fields and calls guard closures but contains no assignment to any
field, so the machine it leaves behind is the receiver unchanged. -/
def CanFireSt (m : StateMachine) (oracle : Nat → Bool) (triggerKey : String) :
    Bool × StateMachine :=
  (CanFire m oracle triggerKey, m)

/-- State-threaded form of `IsInState`: the loop only reads `current`,
`state` and `parent` fields (the loop variable is a local copy of
`current`), so the machine it leaves behind is the receiver unchanged. -/
def IsInStateSt (m : StateMachine) (s : State) (fuel : Nat) :
    Option Bool × StateMachine :=
  (IsInState m s fuel, m)

/-- State-threaded form of `StateMachine.State`: the body is a single field
read, so the machine it leaves behind is the receiver unchanged. -/
def StateSt (m : StateMachine) : Option State × StateMachine :=
  (m.State, m)

/-- The exit-hook labels appearing in a trace, in order. -/
def exitEvents {C : Type} (trace : List (Event C)) : List Nat :=
  trace.filterMap fun e =>
    match e with
    | Event.exit l => some l
    | _ => none

/-- The enter-from invocations appearing in a trace (label and received
context), in order. -/
def enterFromEvents {C : Type} (trace : List (Event C)) : List (Nat × C) :=
  trace.filterMap fun e =>
    match e with
    | Event.enterFrom l c => some (l, c)
    | _ => none

/-- Guard-evaluation log as the spec describes it, defined independently of
`evalPreds`: the predicates are evaluated in registration order and
evaluation stops at the first one whose value is true, so the log holds the
maximal false prefix, followed by the first true predicate when one exists. -/
def specGuardLog (oracle : Nat → Bool) (preds : List Nat) : List (Nat × Bool) :=
  match preds.dropWhile (fun p => !oracle p) with
  | [] => preds.map fun p => (p, oracle p)
  | p :: _ => (preds.takeWhile (fun q => !oracle q) ++ [p]).map fun q => (q, oracle q)

/-- Concrete states and triggers used in the example machines below. -/
def wA : State := ⟨"a"⟩

def wB : State := ⟨"b"⟩

def wMid : State := ⟨"mid"⟩

def wT : Trigger := ⟨"t"⟩

def wT2 : Trigger := ⟨"u"⟩

/-- Example machine: `a` (current, exit hook 1) permits `t` to `b`, and `b`
is a substate of `mid`, itself a substate of `a` — the target's grandparent
is the current state but its parent is not. -/
def mGrand : StateMachine :=
  SubstateOf (SubstateOf (Permit (OnExit (NewStateMachine wA) 0 1) 0 wT wB) 1 wMid) 2 wA

/-- Example machine: `a` (current, exit hook 1, enter hook 2) permits `t`
back to itself — a re-entrant transition. -/
def mSelf : StateMachine :=
  OnEnter (OnExit (Permit (NewStateMachine wA) 0 wT wA) 0 1) 0 2

/-- Example machine: `a` (current) permits `t` to `b`; `b` has enter hook 5,
enter-from hook 6 for `t` and enter-from hook 7 for `u`. -/
def mEnter : StateMachine :=
  OnEnterFrom (OnEnterFrom (OnEnter (Permit (NewStateMachine wA) 0 wT wB) 1 5) 1 wT 6) 1 wT2 7

/-- Example machine: `a` (current) permits `t` to `b` behind the guard
predicates labelled 3 and 4, registered in that order. -/
def mGuard : StateMachine :=
  PermitIf (PermitIf (NewStateMachine wA) 0 wT wB 3) 0 wT wB 4

/-- Example machine: `b` is a substate of `a`; `a` permits `t` to `b`. -/
def mChain0 : StateMachine :=
  SubstateOf (Permit (NewStateMachine wA) 0 wT wB) 1 wA

/-- `mChain0` after the `t` transition: current is `b`'s config (address 1),
whose parent chain is `b`, then `a`. -/
def mChain : StateMachine :=
  { mChain0 with current := 1 }

/-- Example machine: `a` made a substate of itself through `SubstateOf` —
the parent chain from the current config is a one-step cycle. -/
def mCyc : StateMachine :=
  SubstateOf (NewStateMachine wA) 0 wA

theorem lookupA_insertA_self {α β : Type} [DecidableEq α] (l : List (α × β)) (k : α) (v : β) :
    lookupA (insertA l k v) k = some v := by
  induction l with
  | nil => simp [insertA, lookupA]
  | cons hd tl ih =>
    obtain ⟨k0, v0⟩ := hd
    by_cases h : k = k0
    · simp [insertA, h, lookupA]
    · simp [insertA, h, lookupA, ih]

theorem lookupA_insertA_ne {α β : Type} [DecidableEq α] (l : List (α × β)) (k k' : α)
    (v : β) (h : k' ≠ k) : lookupA (insertA l k v) k' = lookupA l k' := by
  induction l with
  | nil => simp [insertA, lookupA, h]
  | cons hd tl ih =>
    obtain ⟨k0, v0⟩ := hd
    by_cases hk : k = k0
    · subst hk; simp [insertA, lookupA, h]
    · simp only [insertA, if_neg hk, lookupA]
      by_cases hk' : k' = k0 <;> simp [hk', ih]

theorem evalPreds_spec (oracle : Nat → Bool) (preds : List Nat) :
    evalPreds oracle preds = (preds.any oracle, specGuardLog oracle preds) := by
  induction preds with
  | nil => rfl
  | cons p ps ih =>
    by_cases h : oracle p = true
    · simp [evalPreds, h, specGuardLog, List.dropWhile_cons, List.takeWhile_cons]
    · have hb : oracle p = false := by simpa using h
      simp only [evalPreds, hb, Bool.false_eq_true, if_false, ih, List.any_cons,
        Bool.false_or]
      simp only [specGuardLog, List.dropWhile_cons, List.takeWhile_cons, hb,
        Bool.not_false, if_true]
      cases hdw : ps.dropWhile (fun q => !oracle q) with
      | nil => simp [hb]
      | cons q rest => simp [hb]

theorem exitWalk_eq_parentChain (m : StateMachine) (fuel : Nat) (oa : Option Nat) :
    exitWalk m fuel oa = (parentChain m fuel oa).map (chainExitLabels m) := by
  induction fuel generalizing oa with
  | zero => cases oa <;> simp [exitWalk, parentChain, chainExitLabels]
  | succ fuel ih =>
    cases oa with
    | none => simp [exitWalk, parentChain, chainExitLabels]
    | some a =>
      simp only [exitWalk, parentChain]
      cases hc : m.configs[a]? with
      | none => rfl
      | some cfg =>
        dsimp only
        rw [ih]
        cases hpc : parentChain m fuel cfg.parent with
        | none => rfl
        | some chain =>
          cases hoe : cfg.onExit <;>
            simp [hoe, chainExitLabels, List.filterMap_cons, hc]

theorem fire_of_not_canFire {C : Type} (m : StateMachine) (oracle : Nat → Bool)
    (k : String) (ctx : C) (fuel : Nat) (h : CanFire m oracle k = false) :
    Fire m oracle k ctx fuel = some (FireResult.error m []) := by
  simp [Fire, h]

theorem fire_ok_shape {C : Type} {m : StateMachine} {oracle : Nat → Bool} {k : String}
    {ctx : C} {fuel : Nat} {m' : StateMachine} {trace : List (Event C)}
    (h : Fire m oracle k ctx fuel = some (FireResult.ok m' trace)) :
    CanFire m oracle k = true ∧
    ∃ cur edge ta tcfg exits,
      m.configs[m.current]? = some cur ∧
      lookupA cur.permitted k = some edge ∧
      lookupA m.stateToConfig edge.state = some ta ∧
      m.configs[ta]? = some tcfg ∧
      fireExits m cur tcfg fuel = some exits ∧
      m' = { m with current := ta } ∧
      trace = exits.map Event.exit ++ entrySteps tcfg edge.trigger ctx := by
  by_cases hcf : CanFire m oracle k = true
  · unfold Fire at h
    rw [if_pos hcf] at h
    cases hcur : m.configs[m.current]? with
    | none => rw [hcur] at h; simp at h
    | some cur =>
      rw [hcur] at h
      dsimp only at h
      cases hedge : lookupA cur.permitted k with
      | none => rw [hedge] at h; simp at h
      | some edge =>
        rw [hedge] at h
        dsimp only at h
        cases hta : lookupA m.stateToConfig edge.state with
        | none => rw [hta] at h; simp at h
        | some ta =>
          rw [hta] at h
          dsimp only at h
          cases htc : m.configs[ta]? with
          | none => rw [htc] at h; simp at h
          | some tcfg =>
            rw [htc] at h
            dsimp only at h
            cases hex : fireExits m cur tcfg fuel with
            | none => rw [hex] at h; simp at h
            | some exits =>
              rw [hex] at h
              dsimp only at h
              simp only [Option.some.injEq, FireResult.ok.injEq] at h
              exact ⟨hcf, cur, edge, ta, tcfg, exits, rfl, hedge, hta, htc, hex,
                h.1.symm, h.2.symm⟩
  · unfold Fire at h
    rw [if_neg hcf] at h
    simp at h

theorem fire_error_shape {C : Type} {m : StateMachine} {oracle : Nat → Bool} {k : String}
    {ctx : C} {fuel : Nat} {me : StateMachine} {tr : List (Event C)}
    (h : Fire m oracle k ctx fuel = some (FireResult.error me tr)) :
    CanFire m oracle k = false ∧ me = m ∧ tr = [] := by
  by_cases hcf : CanFire m oracle k = true
  · exfalso
    unfold Fire at h
    rw [if_pos hcf] at h
    cases hcur : m.configs[m.current]? with
    | none => rw [hcur] at h; simp at h
    | some cur =>
      rw [hcur] at h
      dsimp only at h
      cases hedge : lookupA cur.permitted k with
      | none => rw [hedge] at h; simp at h
      | some edge =>
        rw [hedge] at h
        dsimp only at h
        cases hta : lookupA m.stateToConfig edge.state with
        | none => rw [hta] at h; simp at h
        | some ta =>
          rw [hta] at h
          dsimp only at h
          cases htc : m.configs[ta]? with
          | none => rw [htc] at h; simp at h
          | some tcfg =>
            rw [htc] at h
            dsimp only at h
            cases hex : fireExits m cur tcfg fuel with
            | none => rw [hex] at h; simp at h
            | some exits => rw [hex] at h; dsimp only at h; simp at h
  · have hcf' : CanFire m oracle k = false := by simpa using hcf
    unfold Fire at h
    rw [if_neg hcf] at h
    simp only [Option.some.injEq, FireResult.error.injEq] at h
    exact ⟨hcf', h.1.symm, h.2.symm⟩

theorem registerStateConfig_lookup_self (m : StateMachine) (s : State) :
    lookupA (registerStateConfig m s).1.stateToConfig s =
      some (registerStateConfig m s).2 := by
  cases h : lookupA m.stateToConfig s with
  | some a => simp [registerStateConfig, h]
  | none => simp [registerStateConfig, h, lookupA_insertA_self]

theorem registerStateConfig_get_preserved (m : StateMachine) (s : State) (a : Nat)
    (ha : a < m.configs.length) :
    (registerStateConfig m s).1.configs[a]? = m.configs[a]? := by
  cases h : lookupA m.stateToConfig s with
  | some b => simp [registerStateConfig, h]
  | none =>
    simp only [registerStateConfig, h]
    exact List.getElem?_append_left ha

theorem registerStateConfig_lookup_preserved (m : StateMachine) (s s' : State) (b : Nat)
    (h : lookupA m.stateToConfig s' = some b) :
    lookupA (registerStateConfig m s).1.stateToConfig s' = some b := by
  cases hs : lookupA m.stateToConfig s with
  | some a => simpa [registerStateConfig, hs] using h
  | none =>
    have hne : s' ≠ s := by rintro rfl; rw [h] at hs; cases hs
    simp only [registerStateConfig, hs]
    rw [lookupA_insertA_ne _ _ _ _ hne]
    exact h

theorem registerStateConfig_current (m : StateMachine) (s : State) :
    (registerStateConfig m s).1.current = m.current := by
  cases h : lookupA m.stateToConfig s <;> simp [registerStateConfig, h]

theorem updateConfig_get_self (m : StateMachine) (a : Nat) (f : StateConfig → StateConfig)
    (cfg : StateConfig) (h : m.configs[a]? = some cfg) :
    (updateConfig m a f).configs[a]? = some (f cfg) := by
  have ha : a < m.configs.length := by
    by_contra hlt
    rw [List.getElem?_eq_none (Nat.le_of_not_lt hlt)] at h
    cases h
  simp [updateConfig, h, List.getElem?_set_self ha]

theorem updateConfig_get_ne (m : StateMachine) (a : Nat) (f : StateConfig → StateConfig)
    (a' : Nat) (h : a' ≠ a) :
    (updateConfig m a f).configs[a']? = m.configs[a']? := by
  cases hc : m.configs[a]? with
  | none => simp [updateConfig, hc]
  | some cfg => simp [updateConfig, hc, List.getElem?_set_ne (Ne.symm h)]

theorem updateConfig_current (m : StateMachine) (a : Nat) (f : StateConfig → StateConfig) :
    (updateConfig m a f).current = m.current := by
  cases hc : m.configs[a]? <;> simp [updateConfig, hc]

theorem updateConfig_stateToConfig (m : StateMachine) (a : Nat)
    (f : StateConfig → StateConfig) :
    (updateConfig m a f).stateToConfig = m.stateToConfig := by
  cases hc : m.configs[a]? <;> simp [updateConfig, hc]

theorem getElem?_lt_length {α : Type} (l : List α) (a : Nat) (x : α)
    (h : l[a]? = some x) : a < l.length := by
  by_contra hlt
  rw [List.getElem?_eq_none (Nat.le_of_not_lt hlt)] at h
  cases h

/-- Machines produced through the library's public API: construction,
configuration calls through any handle, and successful transitions. -/
inductive Reachable : StateMachine → Prop where
  | new (s : State) : Reachable (NewStateMachine s)
  | configure (m : StateMachine) (s : State) : Reachable m → Reachable (Configure m s).1
  | permit (m : StateMachine) (a : Nat) (t : Trigger) (s : State) :
      Reachable m → Reachable (Permit m a t s)
  | permitIf (m : StateMachine) (a : Nat) (t : Trigger) (s : State) (p : Nat) :
      Reachable m → Reachable (PermitIf m a t s p)
  | onEnter (m : StateMachine) (a l : Nat) : Reachable m → Reachable (OnEnter m a l)
  | onExit (m : StateMachine) (a l : Nat) : Reachable m → Reachable (OnExit m a l)
  | onEnterFrom (m : StateMachine) (a : Nat) (t : Trigger) (l : Nat) :
      Reachable m → Reachable (OnEnterFrom m a t l)
  | substateOf (m : StateMachine) (a : Nat) (s : State) :
      Reachable m → Reachable (SubstateOf m a s)
  | fire {C : Type} (m : StateMachine) (oracle : Nat → Bool) (k : String) (ctx : C)
      (fuel : Nat) (m' : StateMachine) (trace : List (Event C)) :
      Reachable m → Fire m oracle k ctx fuel = some (FireResult.ok m' trace) →
      Reachable m'

/-- Registry invariant: every registry entry addresses a config for exactly
its state, and every config in the arena is addressed back by the registry
at its state. -/
structure RegistryInv (m : StateMachine) : Prop where
  lookup_get : ∀ s a, lookupA m.stateToConfig s = some a →
    ∃ cfg, m.configs[a]? = some cfg ∧ cfg.state = s
  get_lookup : ∀ a cfg, m.configs[a]? = some cfg →
    lookupA m.stateToConfig cfg.state = some a

theorem registryInv_register (m : StateMachine) (s : State) (h : RegistryInv m) :
    RegistryInv (registerStateConfig m s).1 := by
  cases hs : lookupA m.stateToConfig s with
  | some a => simpa [registerStateConfig, hs] using h
  | none =>
    simp only [registerStateConfig, hs]
    constructor
    · intro s' a' hl
      by_cases hss : s' = s
      · subst hss
        rw [lookupA_insertA_self] at hl
        injection hl with hl
        subst hl
        exact ⟨NewStateConfig s', List.getElem?_concat_length _ _, rfl⟩
      · rw [lookupA_insertA_ne _ _ _ _ hss] at hl
        obtain ⟨cfg, hg, hst⟩ := h.lookup_get s' a' hl
        exact ⟨cfg, by rw [List.getElem?_append_left (getElem?_lt_length _ _ _ hg)]; exact hg,
          hst⟩
    · intro a' cfg hg
      by_cases ha : a' < m.configs.length
      · rw [List.getElem?_append_left ha] at hg
        have hlk := h.get_lookup a' cfg hg
        have hne : cfg.state ≠ s := by
          rintro rfl; rw [hlk] at hs; cases hs
        rw [lookupA_insertA_ne _ _ _ _ hne]
        exact hlk
      · have ha' : a' = m.configs.length := by
          have hlt := getElem?_lt_length _ _ _ hg
          simp only [List.length_append, List.length_cons, List.length_nil] at hlt
          omega
        subst ha'
        rw [List.getElem?_concat_length] at hg
        injection hg with hg
        subst hg
        dsimp only [NewStateConfig]
        rw [lookupA_insertA_self]

theorem registryInv_update (m : StateMachine) (a : Nat) (f : StateConfig → StateConfig)
    (hf : ∀ c, (f c).state = c.state) (h : RegistryInv m) :
    RegistryInv (updateConfig m a f) := by
  cases hc : m.configs[a]? with
  | none => simpa [updateConfig, hc] using h
  | some cfg =>
    constructor
    · intro s' b hl
      rw [updateConfig_stateToConfig] at hl
      obtain ⟨cfg', hg, hst⟩ := h.lookup_get s' b hl
      by_cases hb : b = a
      · subst hb
        rw [hg] at hc
        injection hc with hc
        subst hc
        exact ⟨f cfg', updateConfig_get_self m b f cfg' hg, by rw [hf]; exact hst⟩
      · exact ⟨cfg', by rw [updateConfig_get_ne m a f b hb]; exact hg, hst⟩
    · intro b cfg' hg
      rw [updateConfig_stateToConfig]
      by_cases hb : b = a
      · subst hb
        rw [updateConfig_get_self m b f cfg hc] at hg
        injection hg with hg
        subst hg
        rw [hf]
        exact h.get_lookup b cfg hc
      · rw [updateConfig_get_ne m a f b hb] at hg
        exact h.get_lookup b cfg' hg

theorem registryInv_reachable (m : StateMachine) (h : Reachable m) : RegistryInv m := by
  induction h with
  | new s =>
    have h0 : RegistryInv { current := 0, stateToConfig := [], configs := [] } := by
      constructor
      · intro s a hl; simp [lookupA] at hl
      · intro a cfg hg; simp at hg
    have h1 := registryInv_register _ s h0
    exact ⟨h1.lookup_get, h1.get_lookup⟩
  | configure m s _ ih => exact registryInv_register m s ih
  | permit m a t s _ ih =>
    exact registryInv_update _ a _ (fun c => rfl) (registryInv_register m s ih)
  | permitIf m a t s p _ ih =>
    refine registryInv_update _ a _ (fun c => ?_) (registryInv_register m s ih)
    cases lookupA c.permitted t.key <;> rfl
  | onEnter m a l _ ih => exact registryInv_update _ a _ (fun c => rfl) ih
  | onExit m a l _ ih => exact registryInv_update _ a _ (fun c => rfl) ih
  | onEnterFrom m a t l _ ih => exact registryInv_update _ a _ (fun c => rfl) ih
  | substateOf m a s _ ih =>
    exact registryInv_update _ a _ (fun c => rfl) (registryInv_register m s ih)
  | fire m oracle k ctx fuel m' trace _ hf ih =>
    obtain ⟨-, cur, edge, ta, tcfg, exits, -, -, -, -, -, hm', -⟩ := fire_ok_shape hf
    subst hm'
    exact ⟨ih.lookup_get, ih.get_lookup⟩

theorem isInStateLoop_eq_parentChain (m : StateMachine) (s : State) (fuel : Nat)
    (oa : Option Nat) (chain : List Nat) (h : parentChain m fuel oa = some chain) :
    isInStateLoop m s fuel oa = some (decide (s ∈ chainStates m chain)) := by
  induction fuel generalizing oa chain with
  | zero =>
    cases oa with
    | none =>
      simp only [parentChain, Option.some.injEq] at h
      subst h; simp [isInStateLoop, chainStates]
    | some a => simp [parentChain] at h
  | succ fuel ih =>
    cases oa with
    | none =>
      simp only [parentChain, Option.some.injEq] at h
      subst h; simp [isInStateLoop, chainStates]
    | some a =>
      simp only [parentChain] at h
      cases hc : m.configs[a]? with
      | none => rw [hc] at h; simp at h
      | some cfg =>
        rw [hc] at h
        rcases Option.map_eq_some'.mp h with ⟨rest, hrest, hchain⟩
        subst hchain
        simp only [isInStateLoop, hc]
        have hcs : chainStates m (a :: rest) = cfg.state :: chainStates m rest := by
          simp [chainStates, List.filterMap_cons, hc]
        by_cases hs : cfg.state = s
        · simp [hs, hcs]
        · rw [if_neg hs, ih _ _ hrest, hcs]
          have hiff : (s ∈ cfg.state :: chainStates m rest) ↔ s ∈ chainStates m rest := by
            rw [List.mem_cons]
            exact or_iff_right fun hss => hs hss.symm
          rw [decide_eq_decide.mpr hiff]

theorem exitEvents_fire_trace {C : Type} (exits : List Nat) (tcfg : StateConfig)
    (t : Trigger) (ctx : C) :
    exitEvents (exits.map Event.exit ++ entrySteps tcfg t ctx) = exits := by
  unfold exitEvents entrySteps
  rw [List.filterMap_append, List.filterMap_append]
  have h1 : (exits.map (Event.exit (C := C))).filterMap
      (fun e => match e with | Event.exit l => some l | _ => none) = exits := by
    rw [List.filterMap_map]
    have h2 : ((fun e => match e with | Event.exit l => some l | _ => none) ∘
        (Event.exit (C := C))) = some := by
      funext l; rfl
    rw [h2, List.filterMap_some]
  cases lookupA tcfg.onEnterFrom t <;> cases tcfg.onEnter <;> simp [h1]

theorem enterFromEvents_fire_trace {C : Type} (exits : List Nat) (tcfg : StateConfig)
    (t : Trigger) (ctx : C) :
    enterFromEvents (exits.map Event.exit ++ entrySteps tcfg t ctx) =
      (match lookupA tcfg.onEnterFrom t with
       | some l => [(l, ctx)]
       | none => []) := by
  unfold enterFromEvents entrySteps
  rw [List.filterMap_append, List.filterMap_append]
  have h1 : (exits.map (Event.exit (C := C))).filterMap
      (fun e => match e with | Event.enterFrom l c => some (l, c) | _ => none) = [] := by
    rw [List.filterMap_map]
    have h2 : ((fun e => match e with | Event.enterFrom l c => some (l, c) | _ => none) ∘
        (Event.exit (C := C))) = fun _ => none := by
      funext l; rfl
    rw [h2]
    exact List.filterMap_eq_nil_iff.mpr fun a _ => rfl
  cases lookupA tcfg.onEnterFrom t <;> cases tcfg.onEnter <;> simp [h1]

theorem exitWalk_head (m : StateMachine) (fuel : Nat) (a : Nat) (cfg : StateConfig)
    (exits : List Nat) (hc : m.configs[a]? = some cfg)
    (h : exitWalk m fuel (some a) = some exits) (xl : Nat) (hxl : cfg.onExit = some xl) :
    ∃ rest, exits = xl :: rest := by
  cases fuel with
  | zero => cases h
  | succ fuel =>
    simp only [exitWalk, hc] at h
    cases hw : exitWalk m fuel cfg.parent with
    | none => rw [hw] at h; cases h
    | some rest =>
      rw [hw] at h
      dsimp only at h
      rw [hxl] at h
      injection h with h
      exact ⟨rest, h.symm⟩

/-- C1: on every successful `Fire`, when the target config has no parent,
or its parent's state differs from the current config's state, the exit
events of the trace are exactly the `onExit` labels collected along the
parent chain that starts at the current config, in child-to-ancestor order;
when the target's immediate parent's state equals the current state, the
trace contains no exit event at all.  Both branches are decided by the
target's immediate parent only, so a target whose grandparent (but not
parent) is the current state falls under the first branch and still incurs
the full ancestor exit walk. -/
theorem fire_exit_hooks {C : Type} (m : StateMachine) (oracle : Nat → Bool) (k : String)
    (ctx : C) (fuel : Nat) (m' : StateMachine) (trace : List (Event C))
    (cur : StateConfig) (edge : Edge) (ta : Nat) (tcfg : StateConfig)
    (hcur : m.configs[m.current]? = some cur)
    (hedge : lookupA cur.permitted k = some edge)
    (hta : lookupA m.stateToConfig edge.state = some ta)
    (htcfg : m.configs[ta]? = some tcfg)
    (hfire : Fire m oracle k ctx fuel = some (FireResult.ok m' trace)) :
    ((tcfg.parent = none ∨
        ∀ pa pcfg, tcfg.parent = some pa → m.configs[pa]? = some pcfg →
          pcfg.state ≠ cur.state) →
      ∃ chain, parentChain m fuel (some m.current) = some chain ∧
        exitEvents trace = chainExitLabels m chain) ∧
    (∀ pa pcfg, tcfg.parent = some pa → m.configs[pa]? = some pcfg →
      pcfg.state = cur.state → exitEvents trace = []) := by
  obtain ⟨-, cur0, edge0, ta0, tcfg0, exits, hcur0, hedge0, hta0, htcfg0, hex, -, htr⟩ :=
    fire_ok_shape hfire
  rw [hcur] at hcur0
  injection hcur0 with hcur0
  subst hcur0
  rw [hedge] at hedge0
  injection hedge0 with hedge0
  subst hedge0
  rw [hta] at hta0
  injection hta0 with hta0
  subst hta0
  rw [htcfg] at htcfg0
  injection htcfg0 with htcfg0
  subst htcfg0
  subst htr
  constructor
  · intro hcond
    have hwalk : exitWalk m fuel (some m.current) = some exits := by
      cases htp : tcfg.parent with
      | none => unfold fireExits at hex; rw [htp] at hex; exact hex
      | some pa =>
        rcases hcond with hnone | hne
        · rw [htp] at hnone; cases hnone
        · unfold fireExits at hex
          rw [htp] at hex
          dsimp only at hex
          cases hpc : m.configs[pa]? with
          | none => rw [hpc] at hex; cases hex
          | some pcfg =>
            rw [hpc] at hex
            dsimp only at hex
            rw [if_neg (hne pa pcfg htp hpc)] at hex
            exact hex
    rw [exitWalk_eq_parentChain] at hwalk
    obtain ⟨chain, hch, heq⟩ := Option.map_eq_some'.mp hwalk
    exact ⟨chain, hch, by rw [exitEvents_fire_trace]; exact heq.symm⟩
  · intro pa pcfg htp hpc heq
    unfold fireExits at hex
    rw [htp] at hex
    dsimp only at hex
    rw [hpc] at hex
    dsimp only at hex
    rw [if_pos heq] at hex
    injection hex with hex
    rw [exitEvents_fire_trace, hex]

/-- C1 witness: firing `t` on `mGrand` (current `a`, target `b` whose parent
is `mid` and grandparent is `a`) succeeds with trace `[exit 1]`, and the
theorem's walk branch applies: the exit events equal the exit labels of the
chain starting at `a`'s config even though the target's grandparent is the
current state. -/
theorem fire_exit_hooks_witness :
    Fire mGrand (fun _ => true) "t" (0 : Nat) 10 =
      some (FireResult.ok { mGrand with current := 1 } [Event.exit 1]) ∧
    ∃ chain, parentChain mGrand 10 (some mGrand.current) = some chain ∧
      exitEvents [Event.exit (C := Nat) 1] = chainExitLabels mGrand chain := by
  constructor
  · decide
  · have h := fire_exit_hooks (C := Nat) mGrand (fun _ => true) "t" 0 10
      { mGrand with current := 1 } [Event.exit 1]
      ⟨none, [], some 1, wA, none, [("t", ⟨wT, wB, []⟩)]⟩ ⟨wT, wB, []⟩ 1
      ⟨none, [], none, wB, some 2, []⟩
      (by decide) (by decide) (by decide) (by decide) (by decide)
    refine h.1 (Or.inr fun pa pcfg hpa hpcfg => ?_)
    injection hpa with hpa
    subst hpa
    have hmid : mGrand.configs[(2 : Nat)]? = some ⟨none, [], none, wMid, some 0, []⟩ := by
      decide
    rw [hmid] at hpcfg
    injection hpcfg with hpcfg
    subst hpcfg
    decide

/-- C2: `Fire` returns the error outcome exactly when `CanFire` is false at
the moment of the call — one undifferentiated error value covering both an
unregistered trigger and a guard-denied one — and on that failure the
machine is left completely unchanged and the hook trace is empty. -/
theorem fire_not_permitted {C : Type} (m : StateMachine) (oracle : Nat → Bool)
    (k : String) (ctx : C) (fuel : Nat) :
    ((∃ me tr, Fire m oracle k ctx fuel = some (FireResult.error me tr)) ↔
      CanFire m oracle k = false) ∧
    (∀ me tr, Fire m oracle k ctx fuel = some (FireResult.error me tr) →
      me = m ∧ tr = []) := by
  constructor
  · constructor
    · rintro ⟨me, tr, h⟩
      exact (fire_error_shape h).1
    · intro h
      exact ⟨m, [], fire_of_not_canFire m oracle k ctx fuel h⟩
  · intro me tr h
    exact ⟨(fire_error_shape h).2.1, (fire_error_shape h).2.2⟩

/-- C2 witness: on `mSelf` the key `z` is unregistered, so `CanFire` is
false, `Fire` fails with the error outcome, and the failure leaves the
machine unchanged with an empty trace. -/
theorem fire_not_permitted_witness :
    CanFire mSelf (fun _ => true) "z" = false ∧
    Fire mSelf (fun _ => true) "z" (0 : Nat) 10 = some (FireResult.error mSelf []) ∧
    ∀ me tr, Fire mSelf (fun _ => true) "z" (0 : Nat) 10 =
      some (FireResult.error me tr) → me = mSelf ∧ tr = [] := by
  refine ⟨by decide, ?_, (fire_not_permitted (C := Nat) mSelf (fun _ => true) "z" 0 10).2⟩
  obtain ⟨me, tr, h⟩ :=
    (fire_not_permitted (C := Nat) mSelf (fun _ => true) "z" 0 10).1.mpr (by decide)
  obtain ⟨hme, htr⟩ :=
    (fire_not_permitted (C := Nat) mSelf (fun _ => true) "z" 0 10).2 me tr h
  subst hme
  subst htr
  exact h

/-- C3: `CanFire` is false when the trigger key is absent from the current
config's permitted map; true when the matching edge's guard list is empty;
and with a nonempty guard list it is true iff some guard predicate is true,
the predicates being evaluated in registration order with evaluation
stopping at the first true one — the instrumented evaluation log equals
`specGuardLog`, whose entries are the maximal false prefix followed by the
first true predicate when one exists. -/
theorem canFire_guards (m : StateMachine) (oracle : Nat → Bool) (k : String)
    (cur : StateConfig) (hcur : m.configs[m.current]? = some cur) :
    (lookupA cur.permitted k = none → CanFire m oracle k = false) ∧
    (∀ e, lookupA cur.permitted k = some e →
      (e.preds = [] → CanFireEval m oracle k = (true, [])) ∧
      (e.preds ≠ [] →
        CanFireEval m oracle k = (e.preds.any oracle, specGuardLog oracle e.preds) ∧
        (CanFire m oracle k = true ↔ ∃ p ∈ e.preds, oracle p = true))) := by
  constructor
  · intro habs
    unfold CanFire CanFireEval
    rw [hcur]
    dsimp only
    rw [habs]
  · intro e he
    constructor
    · intro hnil
      unfold CanFireEval
      rw [hcur]
      dsimp only
      rw [he]
      dsimp only
      rw [if_neg (by simp [hnil])]
    · intro hne
      have hlen : e.preds.length > 0 := List.length_pos.mpr hne
      have heval : CanFireEval m oracle k = evalPreds oracle e.preds := by
        unfold CanFireEval
        rw [hcur]
        dsimp only
        rw [he]
        dsimp only
        rw [if_pos hlen]
      constructor
      · rw [heval, evalPreds_spec]
      · unfold CanFire
        rw [heval, evalPreds_spec]
        simp [List.any_eq_true]

/-- C3 witness: on `mGuard` (guards 3 then 4 on the `t` edge) with an oracle
satisfying only guard 4, the theorem yields `CanFireEval = (true, log)` with
the log showing guard 3 evaluated false and guard 4 evaluated true, and the
membership characterization of the result. -/
theorem canFire_guards_witness :
    CanFireEval mGuard (fun p => p == 4) "t" =
      ([3, 4].any (fun p => p == 4), specGuardLog (fun p => p == 4) [3, 4]) ∧
    (CanFire mGuard (fun p => p == 4) "t" = true ↔
      ∃ p ∈ [3, 4], (fun q => q == 4) p = true) ∧
    CanFireEval mGuard (fun p => p == 4) "t" = (true, [(3, false), (4, true)]) := by
  have h := canFire_guards mGuard (fun p => p == 4) "t"
    ⟨none, [], none, wA, none, [("t", ⟨wT, wB, [3, 4]⟩)]⟩ (by decide)
  have h2 := (h.2 ⟨wT, wB, [3, 4]⟩ (by decide)).2 (by decide)
  exact ⟨h2.1, h2.2, by decide⟩

/-- C4: `Permit` registers the target state and unconditionally overwrites
the trigger's edge with a guard-free edge to the target, leaving edges for
other keys unchanged; `PermitIf` registers the target and appends the
predicate to the existing edge for the trigger (keeping that edge's original
target) when one exists, otherwise creates a new edge to the target with a
single-element guard list. -/
theorem permit_permitIf_spec (m : StateMachine) (a : Nat) (cfg : StateConfig)
    (t : Trigger) (s : State) (p : Nat) (hcfg : m.configs[a]? = some cfg) :
    ((∃ b, lookupA (Permit m a t s).stateToConfig s = some b) ∧
     ∃ cfg1, (Permit m a t s).configs[a]? = some cfg1 ∧
       lookupA cfg1.permitted t.key = some { trigger := t, state := s, preds := [] } ∧
       ∀ k', k' ≠ t.key → lookupA cfg1.permitted k' = lookupA cfg.permitted k') ∧
    ((∃ b, lookupA (PermitIf m a t s p).stateToConfig s = some b) ∧
     ∃ cfg2, (PermitIf m a t s p).configs[a]? = some cfg2 ∧
       (lookupA cfg.permitted t.key = none →
         lookupA cfg2.permitted t.key = some { trigger := t, state := s, preds := [p] }) ∧
       (∀ e, lookupA cfg.permitted t.key = some e →
         lookupA cfg2.permitted t.key = some { e with preds := e.preds ++ [p] })) := by
  have hlt : a < m.configs.length := getElem?_lt_length _ _ _ hcfg
  have hget : (registerStateConfig m s).1.configs[a]? = some cfg := by
    rw [registerStateConfig_get_preserved m s a hlt]
    exact hcfg
  constructor
  · constructor
    · refine ⟨(registerStateConfig m s).2, ?_⟩
      unfold Permit
      rw [updateConfig_stateToConfig]
      exact registerStateConfig_lookup_self m s
    · refine ⟨_, updateConfig_get_self _ a _ cfg hget, ?_, ?_⟩
      · exact lookupA_insertA_self _ _ _
      · intro k' hk'
        exact lookupA_insertA_ne _ _ _ _ hk'
  · constructor
    · refine ⟨(registerStateConfig m s).2, ?_⟩
      unfold PermitIf
      rw [updateConfig_stateToConfig]
      exact registerStateConfig_lookup_self m s
    · refine ⟨_, updateConfig_get_self _ a _ cfg hget, ?_, ?_⟩
      · intro habs
        rw [habs]
        exact lookupA_insertA_self _ _ _
      · intro e he
        rw [he]
        exact lookupA_insertA_self _ _ _

/-- C4 witness: applying the Permit/PermitIf theorem on the freshly created
machine for `a` at handle 0 with trigger `t`, target `b` and predicate 3. -/
theorem permit_permitIf_spec_witness :
    ((∃ b, lookupA (Permit (NewStateMachine wA) 0 wT wB).stateToConfig wB = some b) ∧
     ∃ cfg1, (Permit (NewStateMachine wA) 0 wT wB).configs[(0 : Nat)]? = some cfg1 ∧
       lookupA cfg1.permitted wT.key = some { trigger := wT, state := wB, preds := [] } ∧
       ∀ k', k' ≠ wT.key →
         lookupA cfg1.permitted k' = lookupA (NewStateConfig wA).permitted k') ∧
    ((∃ b, lookupA (PermitIf (NewStateMachine wA) 0 wT wB 3).stateToConfig wB = some b) ∧
     ∃ cfg2, (PermitIf (NewStateMachine wA) 0 wT wB 3).configs[(0 : Nat)]? = some cfg2 ∧
       (lookupA (NewStateConfig wA).permitted wT.key = none →
         lookupA cfg2.permitted wT.key = some { trigger := wT, state := wB, preds := [3] }) ∧
       (∀ e, lookupA (NewStateConfig wA).permitted wT.key = some e →
         lookupA cfg2.permitted wT.key = some { e with preds := e.preds ++ [3] })) :=
  permit_permitIf_spec (NewStateMachine wA) 0 (NewStateConfig wA) wT wB 3 (by decide)

/-- C5: on an API-reachable machine, a successful re-entrant `Fire` — the
edge's target state equals the current config's state, and the state is not
configured as its own parent (the forest discipline the spec assumes) —
runs the full exit walk and then the entry steps on the same call: the
trace is the walk's exit events followed by the entry steps of that same
config, its exit hook (when set) is the first event of the trace and its
enter hook (when set) is the last. -/
theorem fire_reentrant {C : Type} (m : StateMachine) (oracle : Nat → Bool) (k : String)
    (ctx : C) (fuel : Nat) (m' : StateMachine) (trace : List (Event C))
    (cur : StateConfig) (edge : Edge)
    (hreach : Reachable m)
    (hcur : m.configs[m.current]? = some cur)
    (hedge : lookupA cur.permitted k = some edge)
    (hre : edge.state = cur.state)
    (hnp : ∀ pa pcfg, cur.parent = some pa → m.configs[pa]? = some pcfg →
      pcfg.state ≠ cur.state)
    (hfire : Fire m oracle k ctx fuel = some (FireResult.ok m' trace)) :
    ∃ exits, exitWalk m fuel (some m.current) = some exits ∧
      trace = exits.map Event.exit ++ entrySteps cur edge.trigger ctx ∧
      (∀ xl, cur.onExit = some xl → trace.head? = some (Event.exit xl)) ∧
      (∀ el, cur.onEnter = some el → ∃ pre, trace = pre ++ [Event.enter el]) := by
  have hta : lookupA m.stateToConfig edge.state = some m.current := by
    rw [hre]
    exact (registryInv_reachable m hreach).get_lookup m.current cur hcur
  obtain ⟨-, cur0, edge0, ta0, tcfg0, exits, hcur0, hedge0, hta0, htcfg0, hex, -, htr⟩ :=
    fire_ok_shape hfire
  rw [hcur] at hcur0
  injection hcur0 with h0
  subst h0
  rw [hedge] at hedge0
  injection hedge0 with h0
  subst h0
  rw [hta] at hta0
  injection hta0 with h0
  subst h0
  rw [hcur] at htcfg0
  injection htcfg0 with h0
  subst h0
  subst htr
  have hwalk : exitWalk m fuel (some m.current) = some exits := by
    unfold fireExits at hex
    cases htp : cur.parent with
    | none => rw [htp] at hex; exact hex
    | some pa =>
      rw [htp] at hex
      dsimp only at hex
      cases hpc : m.configs[pa]? with
      | none => rw [hpc] at hex; cases hex
      | some pcfg =>
        rw [hpc] at hex
        dsimp only at hex
        rw [if_neg (hnp pa pcfg htp hpc)] at hex
        exact hex
  refine ⟨exits, hwalk, rfl, ?_, ?_⟩
  · intro xl hxl
    obtain ⟨rest, hrest⟩ := exitWalk_head m fuel m.current cur exits hcur hwalk xl hxl
    subst hrest
    simp
  · intro el hel
    refine ⟨exits.map Event.exit ++
      (match lookupA cur.onEnterFrom edge.trigger with
       | some l => [Event.enterFrom l ctx]
       | none => []), ?_⟩
    unfold entrySteps
    rw [hel, List.append_assoc]

/-- C5 witness: firing the self-loop trigger `t` on `mSelf` (exit hook 1,
enter hook 2 on the single state `a`) produces the trace
`[exit 1, enter 2]`: the state's exit hook fires first and its enter hook
fires last on the same call. -/
theorem fire_reentrant_witness :
    ∃ exits, exitWalk mSelf 10 (some mSelf.current) = some exits ∧
      ([Event.exit 1, Event.enter 2] : List (Event Nat)) =
        exits.map Event.exit ++
          entrySteps ⟨some 2, [], some 1, wA, none, [("t", ⟨wT, wA, []⟩)]⟩ wT 0 ∧
      (∀ xl, (⟨some 2, [], some 1, wA, none,
          [("t", ⟨wT, wA, []⟩)]⟩ : StateConfig).onExit = some xl →
        ([Event.exit 1, Event.enter 2] : List (Event Nat)).head? =
          some (Event.exit xl)) ∧
      (∀ el, (⟨some 2, [], some 1, wA, none,
          [("t", ⟨wT, wA, []⟩)]⟩ : StateConfig).onEnter = some el →
        ∃ pre, ([Event.exit 1, Event.enter 2] : List (Event Nat)) =
          pre ++ [Event.enter el]) :=
  fire_reentrant mSelf (fun _ => true) "t" 0 10 mSelf [Event.exit 1, Event.enter 2]
    ⟨some 2, [], some 1, wA, none, [("t", ⟨wT, wA, []⟩)]⟩ ⟨wT, wA, []⟩
    (Reachable.onEnter _ 0 2
      (Reachable.onExit _ 0 1
        (Reachable.permit _ 0 wT wA (Reachable.new wA))))
    (by decide) (by decide) (by decide)
    (fun pa pcfg hpa _ => by simp at hpa) (by decide)

/-- C6: on every successful `Fire`, the machine's current address becomes
the target's, and the trace ends with the entry steps: the target's
enter-from hook for the fired trigger (when registered) invoked with the
passed context, followed by the target's enter hook (when set) — both fire
on the same transition when both are registered, and the only enter-from
invocation in the whole trace is the one for the fired trigger with the
passed context (a hook registered for any other trigger never fires). -/
theorem fire_entry_hooks {C : Type} (m : StateMachine) (oracle : Nat → Bool) (k : String)
    (ctx : C) (fuel : Nat) (m' : StateMachine) (trace : List (Event C))
    (cur : StateConfig) (edge : Edge) (ta : Nat) (tcfg : StateConfig)
    (hcur : m.configs[m.current]? = some cur)
    (hedge : lookupA cur.permitted k = some edge)
    (hta : lookupA m.stateToConfig edge.state = some ta)
    (htcfg : m.configs[ta]? = some tcfg)
    (hfire : Fire m oracle k ctx fuel = some (FireResult.ok m' trace)) :
    m'.current = ta ∧
    (∃ exits : List Nat, trace = exits.map Event.exit ++
      ((match lookupA tcfg.onEnterFrom edge.trigger with
        | some l => [Event.enterFrom l ctx]
        | none => []) ++
       (match tcfg.onEnter with
        | some l => [Event.enter l]
        | none => []))) ∧
    enterFromEvents trace =
      (match lookupA tcfg.onEnterFrom edge.trigger with
       | some l => [(l, ctx)]
       | none => []) := by
  obtain ⟨-, cur0, edge0, ta0, tcfg0, exits, hcur0, hedge0, hta0, htcfg0, hex, hm', htr⟩ :=
    fire_ok_shape hfire
  rw [hcur] at hcur0
  injection hcur0 with h0
  subst h0
  rw [hedge] at hedge0
  injection hedge0 with h0
  subst h0
  rw [hta] at hta0
  injection hta0 with h0
  subst h0
  rw [htcfg] at htcfg0
  injection htcfg0 with h0
  subst h0
  subst htr
  subst hm'
  exact ⟨rfl, ⟨exits, rfl⟩, enterFromEvents_fire_trace exits tcfg edge.trigger ctx⟩

/-- C6 witness: firing `t` on `mEnter` moves current to `b`'s address and
yields the trace `[enterFrom 6 ctx, enter 5]` — the enter-from hook for `t`
(label 6) receives the context 0 and fires before the enter hook (label 5),
while the enter-from hook registered for `u` (label 7) does not appear. -/
theorem fire_entry_hooks_witness :
    ({ mEnter with current := 1 } : StateMachine).current = 1 ∧
    (∃ exits : List Nat, ([Event.enterFrom 6 0, Event.enter 5] : List (Event Nat)) =
      exits.map Event.exit ++ ([Event.enterFrom 6 0] ++ [Event.enter 5])) ∧
    enterFromEvents ([Event.enterFrom 6 0, Event.enter 5] : List (Event Nat)) =
      [(6, 0)] :=
  fire_entry_hooks mEnter (fun _ => true) "t" 0 10 { mEnter with current := 1 }
    [Event.enterFrom 6 0, Event.enter 5]
    ⟨none, [], none, wA, none, [("t", ⟨wT, wB, []⟩)]⟩ ⟨wT, wB, []⟩ 1
    ⟨some 5, [(wT, 6), (wT2, 7)], none, wB, none, []⟩
    (by decide) (by decide) (by decide) (by decide) (by decide)

/-- C7: when the parent walk from the current config terminates with the
visited chain, `IsInState s` returns true exactly when `s` is the state of
some config on that chain — the current state or one of its transitive
ancestors — and false for every other state. -/
theorem isInState_spec (m : StateMachine) (s : State) (fuel : Nat) (chain : List Nat)
    (h : parentChain m fuel (some m.current) = some chain) :
    ∃ b, IsInState m s fuel = some b ∧ (b = true ↔ s ∈ chainStates m chain) := by
  refine ⟨decide (s ∈ chainStates m chain),
    isInStateLoop_eq_parentChain m s fuel _ chain h, ?_⟩
  simp

/-- C7 witness: on `mChain` (current `b`, a substate of `a`, chain
addresses `[1, 0]`) the theorem applies, and indeed `IsInState` is true for
the ancestor `a`. -/
theorem isInState_spec_witness :
    (∃ b, IsInState mChain wA 10 = some b ∧ (b = true ↔ wA ∈ chainStates mChain [1, 0])) ∧
    IsInState mChain wA 10 = some true :=
  ⟨isInState_spec mChain wA 10 [1, 0] (by decide), by decide⟩

theorem registerStateConfig_found (m : StateMachine) (s : State) (a : Nat)
    (h : lookupA m.stateToConfig s = some a) : registerStateConfig m s = (m, a) := by
  unfold registerStateConfig
  rw [h]

theorem isInStateLoop_cycle (m : StateMachine) (s : State) (a : Nat) (cfg : StateConfig)
    (hc : m.configs[a]? = some cfg) (hp : cfg.parent = some a) (hs : cfg.state ≠ s) :
    ∀ fuel, isInStateLoop m s fuel (some a) = none := by
  intro fuel
  induction fuel with
  | zero => rfl
  | succ fuel ih =>
    simp only [isInStateLoop, hc]
    rw [if_neg hs, hp]
    exact ih

theorem exitWalk_cycle (m : StateMachine) (a : Nat) (cfg : StateConfig)
    (hc : m.configs[a]? = some cfg) (hp : cfg.parent = some a) :
    ∀ fuel, exitWalk m fuel (some a) = none := by
  intro fuel
  induction fuel with
  | zero => rfl
  | succ fuel ih =>
    simp only [exitWalk, hc, hp, ih]

/-- C8: for every API-reachable machine there is exactly one config per
distinct state, created on first reference and never destroyed: the registry
addresses a config of exactly the looked-up state, every config in the arena
is addressed back by the registry at its own state, two configs holding the
same state share one address, and a second `Configure` of the same state
returns the unchanged machine with the same handle — so mutations through
the first handle are visible through the second. -/
theorem one_config_per_state (m : StateMachine) (h : Reachable m) :
    (∀ s a, lookupA m.stateToConfig s = some a →
      ∃ cfg, m.configs[a]? = some cfg ∧ cfg.state = s) ∧
    (∀ a cfg, m.configs[a]? = some cfg → lookupA m.stateToConfig cfg.state = some a) ∧
    (∀ (a b : Nat) (cfg cfg' : StateConfig), m.configs[a]? = some cfg →
      m.configs[b]? = some cfg' → cfg.state = cfg'.state → a = b) ∧
    (∀ s, Configure (Configure m s).1 s = ((Configure m s).1, (Configure m s).2)) := by
  have inv := registryInv_reachable m h
  refine ⟨inv.lookup_get, inv.get_lookup, ?_, ?_⟩
  · intro a b cfg cfg' ha hb hst
    have h1 := inv.get_lookup a cfg ha
    have h2 := inv.get_lookup b cfg' hb
    rw [hst] at h1
    rw [h1] at h2
    injection h2
  · intro s
    exact registerStateConfig_found (registerStateConfig m s).1 s
      (registerStateConfig m s).2 (registerStateConfig_lookup_self m s)

/-- C8 witness: `mEnter` is reachable through the API, so the one-config-
per-state registry properties and the Configure idempotence hold on it. -/
theorem one_config_per_state_witness :
    (∀ s a, lookupA mEnter.stateToConfig s = some a →
      ∃ cfg, mEnter.configs[a]? = some cfg ∧ cfg.state = s) ∧
    (∀ a cfg, mEnter.configs[a]? = some cfg →
      lookupA mEnter.stateToConfig cfg.state = some a) ∧
    (∀ (a b : Nat) (cfg cfg' : StateConfig), mEnter.configs[a]? = some cfg →
      mEnter.configs[b]? = some cfg' → cfg.state = cfg'.state → a = b) ∧
    (∀ s, Configure (Configure mEnter s).1 s =
      ((Configure mEnter s).1, (Configure mEnter s).2)) :=
  one_config_per_state mEnter
    (Reachable.onEnterFrom _ 1 wT2 7
      (Reachable.onEnterFrom _ 1 wT 6
        (Reachable.onEnter _ 1 5
          (Reachable.permit _ 0 wT wB (Reachable.new wA)))))

/-- C9: whenever the parent walk from the current config reaches the root
in finitely many steps, `IsInState` and `Fire`'s exit walk both terminate;
and the acyclicity is a genuine precondition — `SubstateOf` performs no
cycle check, and on `mCyc` (a state made its own parent through
`SubstateOf`) both parent-following loops return `none` at every fuel,
i.e. the Go loops never finish. -/
theorem parent_walk_termination :
    (∀ (m : StateMachine) (s : State) (fuel : Nat) (chain : List Nat),
      parentChain m fuel (some m.current) = some chain →
      (∃ b, IsInState m s fuel = some b) ∧
      (∃ l, exitWalk m fuel (some m.current) = some l)) ∧
    (∀ fuel : Nat, IsInState mCyc wB fuel = none ∧
      exitWalk mCyc fuel (some mCyc.current) = none) := by
  constructor
  · intro m s fuel chain h
    refine ⟨⟨_, isInStateLoop_eq_parentChain m s fuel _ chain h⟩,
      ⟨chainExitLabels m chain, ?_⟩⟩
    rw [exitWalk_eq_parentChain, h]
    rfl
  · intro fuel
    have hc : mCyc.configs[(0 : Nat)]? = some ⟨none, [], none, wA, some 0, []⟩ := by
      decide
    constructor
    · show isInStateLoop mCyc wB fuel (some mCyc.current) = none
      exact isInStateLoop_cycle mCyc wB 0 _ hc rfl (by decide) fuel
    · exact exitWalk_cycle mCyc 0 _ hc rfl fuel

/-- C9 witness: on `mChain` the parent walk terminates with chain `[1, 0]`,
so `IsInState` and the exit walk both terminate there. -/
theorem parent_walk_termination_witness :
    (∃ b, IsInState mChain wMid 10 = some b) ∧
    (∃ l, exitWalk mChain 10 (some mChain.current) = some l) :=
  parent_walk_termination.1 mChain wMid 10 [1, 0] (by decide)

/-- C10: the observer methods modify nothing: the machine component left
behind by the state-threaded `CanFire`, `IsInState` and `State` is the
receiver itself — current pointer, registry and every config untouched —
while their value components are the corresponding pure observers. -/
theorem observers_pure (m : StateMachine) (oracle : Nat → Bool) (k : String)
    (s : State) (fuel : Nat) :
    CanFireSt m oracle k = (CanFire m oracle k, m) ∧
    IsInStateSt m s fuel = (IsInState m s fuel, m) ∧
    StateSt m = (m.State, m) :=
  ⟨rfl, rfl, rfl⟩

end SSM
